import Mathlib

/-!
Verification of the monthly installment-investment simulator in `src/app.py`
(repository honkak/stock_simulator).

The embedding below translates the numeric core of the script:
  * `is_korean_stock`            (app.py:18-19)
  * `simulate_monthly_investment` (app.py:182-242), including the FX alignment
    `rate_series.reindex(close.index, method=ffill).fillna(1300)` (app.py:196-203)
    and the final trim `cumulative[cumulative.cumsum() != 0]` (app.py:238)
  * the per-code collection loop and the empty-result guard (app.py:312-321)
  * the aggregation `pd.concat(dfs, axis=1).ffill().dropna(how=all)` (app.py:324)
  * the principal accumulator (app.py:329-338)
  * the final summary computations in `display_final_summary_table` (app.py:97-166)

Machine floats are modelled by `ℚ`; dates by a record of numerals ordered
lexicographically; pandas series by date-sorted association lists; a fetch
failure caught by the `except` branch by `Option.none`.
-/

/-- A calendar date, ordered lexicographically by (year, month, day). -/
structure Date where
  year : Nat
  month : Nat
  day : Nat
deriving DecidableEq, Repr

instance : Inhabited Date := ⟨⟨0, 0, 0⟩⟩

/-- Lexicographic less-or-equal on dates. -/
def Date.ble (a b : Date) : Bool :=
  decide (a.year < b.year) ||
    (decide (a.year = b.year) &&
      (decide (a.month < b.month) || (decide (a.month = b.month) && decide (a.day ≤ b.day))))

/-- Lexicographic strictly-less on dates. -/
def Date.blt (a b : Date) : Bool :=
  decide (a.year < b.year) ||
    (decide (a.year = b.year) &&
      (decide (a.month < b.month) || (decide (a.month = b.month) && decide (a.day < b.day))))

theorem Date.ble_iff (a b : Date) :
    a.ble b = true ↔
      a.year < b.year ∨ (a.year = b.year ∧
        (a.month < b.month ∨ (a.month = b.month ∧ a.day ≤ b.day))) := by
  simp [Date.ble]

theorem Date.blt_iff (a b : Date) :
    a.blt b = true ↔
      a.year < b.year ∨ (a.year = b.year ∧
        (a.month < b.month ∨ (a.month = b.month ∧ a.day < b.day))) := by
  simp [Date.blt]

theorem Date.ble_refl (a : Date) : a.ble a = true := by
  rw [Date.ble_iff]; omega

theorem Date.blt_irrefl (a : Date) : a.blt a = false := by
  have h := Date.blt_iff a a
  cases hb : a.blt a with
  | false => rfl
  | true => rw [hb] at h; have := h.mp rfl; omega

theorem Date.blt_trans {a b c : Date} (h1 : a.blt b = true) (h2 : b.blt c = true) :
    a.blt c = true := by
  rw [Date.blt_iff] at *; omega

theorem Date.ble_trans {a b c : Date} (h1 : a.ble b = true) (h2 : b.ble c = true) :
    a.ble c = true := by
  rw [Date.ble_iff] at *; omega

theorem Date.ble_of_blt {a b : Date} (h : a.blt b = true) : a.ble b = true := by
  rw [Date.blt_iff] at h; rw [Date.ble_iff]; omega

theorem Date.blt_of_blt_of_ble {a b c : Date} (h1 : a.blt b = true) (h2 : b.ble c = true) :
    a.blt c = true := by
  rw [Date.blt_iff] at *; rw [Date.ble_iff] at h2; omega

theorem Date.blt_of_ble_of_blt {a b c : Date} (h1 : a.ble b = true) (h2 : b.blt c = true) :
    a.blt c = true := by
  rw [Date.ble_iff] at h1; rw [Date.blt_iff] at *; omega

theorem Date.ble_antisymm {a b : Date} (h1 : a.ble b = true) (h2 : b.ble a = true) :
    a = b := by
  rw [Date.ble_iff] at *
  cases a; cases b; simp only [Date.mk.injEq]
  simp only at h1 h2
  omega

theorem Date.not_ble_of_blt {a b : Date} (h : a.blt b = true) : b.ble a = false := by
  cases hb : b.ble a with
  | false => rfl
  | true =>
    exfalso
    rw [Date.blt_iff] at h; rw [Date.ble_iff] at hb; omega

theorem Date.not_blt_of_ble {a b : Date} (h : a.ble b = true) : b.blt a = false := by
  cases hb : b.blt a with
  | false => rfl
  | true =>
    exfalso
    rw [Date.ble_iff] at h; rw [Date.blt_iff] at hb; omega

theorem Date.blt_of_not_ble {a b : Date} (h : a.ble b = false) : b.blt a = true := by
  have h1 := Date.ble_iff a b
  rw [h] at h1
  rw [Date.blt_iff]
  simp only [Bool.false_eq_true, false_iff] at h1
  omega

theorem Date.eq_or_blt_of_ble {a b : Date} (h : a.ble b = true) :
    a = b ∨ a.blt b = true := by
  by_cases he : a = b
  · exact Or.inl he
  · refine Or.inr ?_
    rw [Date.ble_iff] at h; rw [Date.blt_iff]
    cases a; cases b
    simp only [Date.mk.injEq, not_and] at he
    simp only at h ⊢
    by_contra hc
    push_neg at hc
    omega

/-- A pandas series indexed by date: a date-sorted association list. -/
abbrev Series := List (Date × ℚ)

/-- Strict ascending-by-date check for a date list (a pandas index). -/
def sortedDates : List Date → Bool
  | [] => true
  | [_] => true
  | a :: b :: rest => a.blt b && sortedDates (b :: rest)

/-- Strict ascending-by-date check for a series. -/
def sortedSeries (s : Series) : Bool := sortedDates (s.map Prod.fst)

theorem sortedDates_cons {d : Date} {ds : List Date}
    (h : sortedDates (d :: ds) = true) :
    sortedDates ds = true ∧ ∀ x ∈ ds, d.blt x = true := by
  induction ds generalizing d with
  | nil => exact ⟨rfl, by intro x hx; cases hx⟩
  | cons b rest ih =>
    simp only [sortedDates, Bool.and_eq_true] at h
    obtain ⟨hdb, hrest⟩ := h
    obtain ⟨_, hall⟩ := ih hrest
    refine ⟨hrest, ?_⟩
    intro x hx
    cases hx with
    | head => exact hdb
    | tail _ hx => exact Date.blt_trans hdb (hall x hx)

theorem sortedDates_tail {d : Date} {ds : List Date}
    (h : sortedDates (d :: ds) = true) : sortedDates ds = true :=
  (sortedDates_cons h).1

/-- Python `str.isdigit() and len(code) == 6` from app.py:18-19 (ASCII digits). -/
def is_korean_stock (code : String) : Bool :=
  code.data.all Char.isDigit && code.length == 6

/-- The hard-coded fallback exchange rate `default_rate = 1300.0` (app.py:197). -/
def defaultRate : ℚ := 1300

/-- Value at the last entry of `s` (in list order) whose date is ≤ `d`. On a
date-sorted series this is the pandas forward-fill lookup. -/
def lastAtOrBefore : Series → Date → Option ℚ
  | [], _ => none
  | e :: rest, d =>
    if e.1.ble d = true then some ((lastAtOrBefore rest d).getD e.2)
    else lastAtOrBefore rest d

/-- Value at the last entry of `s` whose date is strictly before `d`. -/
def lastBefore : Series → Date → Option ℚ
  | [], _ => none
  | e :: rest, d =>
    if e.1.blt d = true then some ((lastBefore rest d).getD e.2)
    else lastBefore rest d

/-- Value of the entry of `s` whose date is exactly `d`, if any. -/
def exactAt : Series → Date → Option ℚ
  | [], _ => none
  | e :: rest, d => if e.1 = d then some e.2 else exactAt rest d

/-- The exchange rate the loop reads at a trading date: the embedding of
`rate_series.reindex(close.index, method=ffill).fillna(default_rate)` when the
series is present and non-empty, and of the constant `default_rate` series
otherwise (app.py:199-203). -/
def alignedRate (rate_series : Option Series) (d : Date) : ℚ :=
  match rate_series with
  | none => defaultRate
  | some s => if s.isEmpty then defaultRate else (lastAtOrBefore s d).getD defaultRate

/-- Mutable loop state of `simulate_monthly_investment`: `shares` and
`last_month` (initialised to `0` and `-1`, app.py:192-193). -/
structure SimState where
  shares : ℚ
  lastMonth : Int
deriving DecidableEq, Repr

/-- One output point `cumulative[date]`. -/
structure SimRow where
  date : Date
  value : ℚ
deriving DecidableEq, Repr

/-- One iteration of the `for date, price in close.items()` loop
(app.py:206-231): decide the local-currency investment, buy on a month-number
change, then record the mark-to-market value. -/
def simStep (isKr : Bool) (monthly : ℚ) (fx : Option Series) (st : SimState)
    (e : Date × ℚ) : SimState × SimRow :=
  let price := e.2
  let exchangeRate : ℚ := if isKr then 1 else alignedRate fx e.1
  let investLocal : ℚ := if isKr then monthly else monthly / exchangeRate
  let shares2 : ℚ :=
    if ((e.1.month : Int) = st.lastMonth) then st.shares
    else st.shares + investLocal / price
  let last2 : Int :=
    if ((e.1.month : Int) = st.lastMonth) then st.lastMonth else (e.1.month : Int)
  let value : ℚ := if isKr then shares2 * price else shares2 * price * exchangeRate
  (⟨shares2, last2⟩, ⟨e.1, value⟩)

/-- The whole price loop, returning the state after each step paired with the
recorded row. -/
def simRun (isKr : Bool) (monthly : ℚ) (fx : Option Series) :
    SimState → Series → List (SimState × SimRow)
  | _, [] => []
  | st, e :: rest =>
    let p := simStep isKr monthly fx st e
    p :: simRun isKr monthly fx p.1 rest

/-- The trim `cumulative[cumulative.cumsum() != 0]` (app.py:238): keep the rows
at which the running sum of recorded values is non-zero. -/
def trimAux : ℚ → List SimRow → List SimRow
  | _, [] => []
  | c, r :: rest =>
    let c2 := c + r.value
    if c2 = 0 then trimAux c2 rest else r :: trimAux c2 rest

/-- The simulator `simulate_monthly_investment` (app.py:182-242). Here `fetched = none` models the
`except` branch: any failure of the data fetch makes the call return `None`. -/
def simulate_monthly_investment (code : String) (fetched : Option Series)
    (monthly : ℚ) (rate_series : Option Series) : Option (List SimRow) :=
  match fetched with
  | none => none
  | some close =>
      some (trimAux 0
        ((simRun (is_korean_stock code) monthly rate_series ⟨0, -1⟩ close).map
          (fun x => x.2)))

/-- The running `shares` variable after each loop iteration. -/
def sharesTrace (code : String) (monthly : ℚ) (fx : Option Series) (close : Series) :
    List ℚ :=
  (simRun (is_korean_stock code) monthly fx ⟨0, -1⟩ close).map (fun x => x.1.shares)

/-- The principal loop body (app.py:332-337): bump the running total on a
month-number change, then record it for the date. -/
def principalRun (monthly : ℚ) : ℚ → Int → List Date → List ℚ
  | _, _, [] => []
  | total, lastM, d :: rest =>
    if ((d.month : Int) = lastM) then total :: principalRun monthly total lastM rest
    else (total + monthly) :: principalRun monthly (total + monthly) (d.month : Int) rest

/-- The series `cumulative_principal` (app.py:329-338) over a date index. -/
def cumulative_principal (monthly : ℚ) (idx : List Date) : List ℚ :=
  principalRun monthly 0 (-1) idx

/-- Two dates share a calendar month when both year and month agree. -/
def sameMonth (a b : Date) : Bool :=
  a.year == b.year && a.month == b.month

/-- Date `i` of the index is the first trading day of its calendar month: no
earlier index entry lies in the same (year, month). -/
def firstOfNewMonth (ds : List Date) (i : Nat) : Bool :=
  (List.range i).all (fun j => !(sameMonth (ds.getD j default) (ds.getD i default)))

/-- No two consecutive index dates lie in distinct calendar months that share
the same month number (the situation in which the month-number comparison of
the source diverges from a calendar-month comparison). -/
def noMonthAliasing : List Date → Bool
  | [] => true
  | [_] => true
  | a :: b :: rest =>
    (sameMonth a b || !(a.month == b.month)) && noMonthAliasing (b :: rest)

/-- The `last_month` value encoding an optional previous date (`-1` at start). -/
def monthInt : Option Date → Int
  | none => -1
  | some d => (d.month : Int)

/-- Prepend an optional previous date to an index. -/
def optCons : Option Date → List Date → List Date
  | none, l => l
  | some d, l => d :: l

/-- Date `i` opens a new calendar month relative to its immediate predecessor
(`dprev` for `i = 0`). -/
def consecNew (dprev : Option Date) (ds : List Date) : Nat → Bool
  | 0 =>
    match dprev with
    | none => true
    | some d0 => !(sameMonth d0 (ds.getD 0 default))
  | k + 1 => !(sameMonth (ds.getD k default) (ds.getD (k + 1) default))

theorem sameMonth_iff (a b : Date) :
    sameMonth a b = true ↔ a.year = b.year ∧ a.month = b.month := by
  simp [sameMonth]

theorem noMonthAliasing_tail {d : Date} {ds : List Date}
    (h : noMonthAliasing (d :: ds) = true) : noMonthAliasing ds = true := by
  cases ds with
  | nil => rfl
  | cons b rest =>
    simp only [noMonthAliasing, Bool.and_eq_true] at h
    exact h.2

theorem noMonthAliasing_head {a b : Date} {ds : List Date}
    (h : noMonthAliasing (a :: b :: ds) = true) :
    a.month = b.month → sameMonth a b = true := by
  simp only [noMonthAliasing, Bool.and_eq_true, Bool.or_eq_true, Bool.not_eq_true',
    beq_eq_false_iff_ne, ne_eq] at h
  intro hm
  rcases h.1 with hs | hne
  · exact hs
  · exact absurd hm hne

theorem monthInt_nonneg (d : Date) : 0 ≤ monthInt (some d) := by
  simp [monthInt]

/-- The membership fact behind `List.getD` at an in-range position. -/
theorem getD_mem {α : Type} : ∀ (l : List α) (k : Nat) (d : α), k < l.length →
    l.getD k d ∈ l := by
  intro l
  induction l with
  | nil => intro k d h; simp at h
  | cons a t ih =>
    intro k d h
    cases k with
    | zero => simp
    | succ k =>
      simp only [List.getD_cons_succ]
      exact List.mem_cons_of_mem a (ih k d (by simpa using h))

/-- Lexicographic (year, month) comparison used to transfer date order to
calendar-month order. -/
def ymLe (a b : Date) : Prop :=
  a.year < b.year ∨ (a.year = b.year ∧ a.month ≤ b.month)

theorem ymLe_refl (a : Date) : ymLe a a := by unfold ymLe; omega

theorem ymLe_of_blt {a b : Date} (h : a.blt b = true) : ymLe a b := by
  rw [Date.blt_iff] at h; unfold ymLe; omega

theorem sameMonth_of_between {a b c : Date} (h1 : ymLe a b) (h2 : ymLe b c)
    (h3 : sameMonth a c = true) : sameMonth b c = true := by
  rw [sameMonth_iff] at h3 ⊢
  unfold ymLe at h1 h2
  omega

theorem getD_blt_of_sorted :
    ∀ (ds : List Date), sortedDates ds = true → ∀ j k, j < k → k < ds.length →
      (ds.getD j default).blt (ds.getD k default) = true := by
  intro ds
  induction ds with
  | nil => intro _ j k _ hk; simp at hk
  | cons d t ih =>
    intro hs j k hjk hk
    obtain ⟨ht, hall⟩ := sortedDates_cons hs
    cases k with
    | zero => omega
    | succ k =>
      cases j with
      | zero =>
        simp only [List.getD_cons_zero, List.getD_cons_succ]
        exact hall _ (getD_mem t k default (by simpa using hk))
      | succ j =>
        simp only [List.getD_cons_succ]
        exact ih ht j k (by omega) (by simpa using hk)

theorem consecNew_none_iff_first (ds : List Date) (hs : sortedDates ds = true) :
    ∀ i, i < ds.length → (consecNew none ds i = true ↔ firstOfNewMonth ds i = true) := by
  intro i hi
  cases i with
  | zero =>
    simp [consecNew, firstOfNewMonth]
  | succ k =>
    simp only [consecNew, firstOfNewMonth, List.all_eq_true, List.mem_range,
      Bool.not_eq_true', Bool.not_eq_true]
    constructor
    · intro hck j hj
      rcases Nat.lt_succ_iff_lt_or_eq.mp hj with hjk | rfl
      · cases hsm : sameMonth (ds.getD j default) (ds.getD (k + 1) default) with
        | false => rfl
        | true =>
          exfalso
          have h1 : ymLe (ds.getD j default) (ds.getD k default) :=
            ymLe_of_blt (getD_blt_of_sorted ds hs j k hjk (by omega))
          have h2 : ymLe (ds.getD k default) (ds.getD (k + 1) default) :=
            ymLe_of_blt (getD_blt_of_sorted ds hs k (k + 1) (by omega) hi)
          have := sameMonth_of_between h1 h2 hsm
          rw [this] at hck
          exact absurd hck (by simp)
      · exact hck
    · intro hall
      exact hall k (by omega)

theorem simStep_lastMonth (isKr : Bool) (C : ℚ) (fx : Option Series)
    (st : SimState) (e : Date × ℚ) :
    (simStep isKr C fx st e).1.lastMonth = (e.1.month : Int) := by
  simp only [simStep]
  split
  · omega
  · rfl

theorem simStep_shares (isKr : Bool) (C : ℚ) (st : SimState) (e : Date × ℚ) :
    (simStep isKr C none st e).1.shares =
      if ((e.1.month : Int) = st.lastMonth) then st.shares
      else st.shares + (if isKr then C else C / defaultRate) / e.2 := by
  cases isKr <;> simp [simStep, alignedRate]

theorem simRun_cons (isKr : Bool) (C : ℚ) (fx : Option Series) (st : SimState)
    (e : Date × ℚ) (rest : Series) :
    simRun isKr C fx st (e :: rest) =
      simStep isKr C fx st e :: simRun isKr C fx (simStep isKr C fx st e).1 rest := rfl

theorem month_tick_iff (dprev : Option Date) (d : Date) (rest : List Date)
    (halias : noMonthAliasing (optCons dprev (d :: rest)) = true) :
    ((d.month : Int) = monthInt dprev) ↔ consecNew dprev (d :: rest) 0 = false := by
  cases dprev with
  | none =>
    simp only [monthInt, consecNew]
    constructor
    · intro h; omega
    · intro h; simp at h
  | some d0 =>
    simp only [monthInt, consecNew, optCons] at halias ⊢
    constructor
    · intro h
      have hm : d0.month = d.month := by exact_mod_cast h.symm
      have := noMonthAliasing_head halias hm
      simp [this]
    · intro h
      have h2 : sameMonth d0 d = true := by simpa using h
      rw [sameMonth_iff] at h2
      exact_mod_cast h2.2.symm

theorem consecNew_shift (dprev : Option Date) (d : Date) (rest : List Date) (k : Nat) :
    consecNew (some d) rest k = consecNew dprev (d :: rest) (k + 1) := by
  cases k <;> simp [consecNew]

theorem simRun_shares_aux (isKr : Bool) (C : ℚ)
    (hinv : 0 < (if isKr then C else C / defaultRate)) :
    ∀ (P : Series) (st : SimState) (dprev : Option Date),
      st.lastMonth = monthInt dprev →
      (∀ e ∈ P, 0 < e.2) →
      noMonthAliasing (optCons dprev (P.map Prod.fst)) = true →
      List.Chain' (· ≤ ·)
        (st.shares :: (simRun isKr C none st P).map (fun x => x.1.shares)) ∧
      ∀ i, i < P.length →
        ((st.shares :: (simRun isKr C none st P).map (fun x => x.1.shares)).getD i 0 <
            (st.shares :: (simRun isKr C none st P).map (fun x => x.1.shares)).getD (i + 1) 0 ↔
          consecNew dprev (P.map Prod.fst) i = true) := by
  intro P
  induction P with
  | nil =>
    intro st dprev _ _ _
    refine ⟨by simp [simRun], ?_⟩
    intro i hi
    simp at hi
  | cons e rest ih =>
    intro st dprev hlm hpos halias
    have hmap : (e :: rest).map Prod.fst = e.1 :: rest.map Prod.fst := rfl
    have hprice : 0 < e.2 := hpos e (List.mem_cons_self e rest)
    have hstep : 0 < (if isKr then C else C / defaultRate) / e.2 := div_pos hinv hprice
    have htick : ((e.1.month : Int) = st.lastMonth) ↔
        consecNew dprev ((e :: rest).map Prod.fst) 0 = false := by
      rw [hlm, hmap]
      exact month_tick_iff dprev e.1 (rest.map Prod.fst) (by rw [hmap] at halias; exact halias)
    have hs2 := simStep_shares isKr C st e
    have hl2 := simStep_lastMonth isKr C none st e
    have halias2 : noMonthAliasing (optCons (some e.1) (rest.map Prod.fst)) = true := by
      rw [hmap] at halias
      cases dprev with
      | none => exact halias
      | some d0 => exact noMonthAliasing_tail halias
    obtain ⟨ihchain, ihidx⟩ := ih (simStep isKr C none st e).1 (some e.1)
      (by rw [hl2]; rfl)
      (fun f hf => hpos f (List.mem_cons_of_mem e hf))
      halias2
    rw [simRun_cons, List.map_cons]
    constructor
    · refine List.chain'_cons.mpr ⟨?_, ihchain⟩
      rw [hs2]
      split
      · exact le_refl _
      · exact le_add_of_nonneg_right (le_of_lt hstep)
    · intro i hi
      cases i with
      | zero =>
        simp only [List.getD_cons_zero, List.getD_cons_succ]
        rw [hs2]
        by_cases ht : ((e.1.month : Int) = st.lastMonth)
        · rw [if_pos ht]
          have hc := htick.mp ht
          rw [hc]
          simp
        · rw [if_neg ht]
          have hc : consecNew dprev ((e :: rest).map Prod.fst) 0 = true := by
            cases hcc : consecNew dprev ((e :: rest).map Prod.fst) 0 with
            | true => rfl
            | false => exact absurd (htick.mpr hcc) ht
          rw [hc]
          simp only [iff_true]
          exact lt_add_of_pos_right st.shares hstep
      | succ k =>
        have hk : k < rest.length := by simpa using hi
        have h := ihidx k hk
        simp only [List.getD_cons_succ] at h ⊢
        rw [h, hmap, consecNew_shift dprev e.1 (rest.map Prod.fst) k]

theorem principalRun_aux (m : ℚ) :
    ∀ (idx : List Date) (total : ℚ) (dprev : Option Date),
      noMonthAliasing (optCons dprev idx) = true →
      ∀ i, i < idx.length →
        (total :: principalRun m total (monthInt dprev) idx).getD (i + 1) 0 =
          (total :: principalRun m total (monthInt dprev) idx).getD i 0 +
            (if consecNew dprev idx i = true then m else 0) := by
  intro idx
  induction idx with
  | nil =>
    intro total dprev _ i hi
    simp at hi
  | cons d rest ih =>
    intro total dprev halias i hi
    have htick : ((d.month : Int) = monthInt dprev) ↔ consecNew dprev (d :: rest) 0 = false :=
      month_tick_iff dprev d rest halias
    have halias2 : noMonthAliasing (optCons (some d) rest) = true := by
      cases dprev with
      | none => exact halias
      | some d0 => exact noMonthAliasing_tail halias
    by_cases ht : ((d.month : Int) = monthInt dprev)
    · have hrw : principalRun m total (monthInt dprev) (d :: rest) =
          total :: principalRun m total (monthInt (some d)) rest := by
        simp only [principalRun, if_pos ht]
        have hmi : monthInt dprev = monthInt (some d) := ht.symm
        rw [hmi]
      rw [hrw]
      cases i with
      | zero =>
        have hc := htick.mp ht
        rw [hc]
        simp
      | succ k =>
        have hk : k < rest.length := by simpa using hi
        have h2 := ih total (some d) halias2 k hk
        simp only [List.getD_cons_succ] at h2 ⊢
        rw [h2, consecNew_shift dprev d rest k]
    · have hrw : principalRun m total (monthInt dprev) (d :: rest) =
          (total + m) :: principalRun m (total + m) (monthInt (some d)) rest := by
        simp only [principalRun, if_neg ht]
        rfl
      rw [hrw]
      cases i with
      | zero =>
        have hc : consecNew dprev (d :: rest) 0 = true := by
          cases hcc : consecNew dprev (d :: rest) 0 with
          | true => rfl
          | false => exact absurd (htick.mpr hcc) ht
        rw [hc]
        simp
      | succ k =>
        have hk : k < rest.length := by simpa using hi
        have h2 := ih (total + m) (some d) halias2 k hk
        simp only [List.getD_cons_succ] at h2 ⊢
        rw [h2, consecNew_shift dprev d rest k]

/-- C1 (amended): with positive prices, with the series strictly increasing by
date, and provided no two consecutive calendar months present in the series
share the same month number, the running shares count is non-decreasing and
strictly increases exactly on the first trading day of each calendar month
present in the series. (The source compares only `date.month` with the month
of the last contribution, app.py:220-222.) -/
theorem C1_shares_monotone (code : String) (C : ℚ) (P : Series) (hC : 0 < C)
    (hpos : ∀ e ∈ P, 0 < e.2)
    (hsorted : sortedDates (P.map Prod.fst) = true)
    (halias : noMonthAliasing (P.map Prod.fst) = true) :
    List.Chain' (· ≤ ·) ((0 : ℚ) :: sharesTrace code C none P) ∧
    ∀ i, i < P.length →
      (((0 : ℚ) :: sharesTrace code C none P).getD i 0 <
          ((0 : ℚ) :: sharesTrace code C none P).getD (i + 1) 0 ↔
        firstOfNewMonth (P.map Prod.fst) i = true) := by
  have hinv : 0 < (if is_korean_stock code then C else C / defaultRate) := by
    split
    · exact hC
    · exact div_pos hC (by norm_num [defaultRate])
  obtain ⟨h1, h2⟩ := simRun_shares_aux (is_korean_stock code) C hinv P ⟨0, -1⟩ none rfl hpos halias
  refine ⟨h1, ?_⟩
  intro i hi
  rw [← consecNew_none_iff_first (P.map Prod.fst) hsorted i (by simpa using hi)]
  exact h2 i hi

/-- C1 (counterexample): a strictly date-sorted series in which 2023-01-05 is
the first trading day of the calendar month 2023-01 present in the series, yet
the running shares count does not increase there, because the loop only
compares month numbers and the previous contribution was also in a January. -/
theorem C1_counterexample :
    sortedDates [⟨2022, 1, 3⟩, ⟨2023, 1, 5⟩] = true ∧
    firstOfNewMonth [⟨2022, 1, 3⟩, ⟨2023, 1, 5⟩] 1 = true ∧
    sharesTrace "005930" 500000 none [(⟨2022, 1, 3⟩, 100), (⟨2023, 1, 5⟩, 100)] =
      [5000, 5000] := by
  refine ⟨by decide, by decide, ?_⟩
  have hkr : is_korean_stock "005930" = true := rfl
  simp only [sharesTrace, hkr]
  norm_num [simRun, simStep]

/-- C1 (witness): the amended theorem applied to a concrete two-month series. -/
theorem C1_witness :
    List.Chain' (· ≤ ·)
      ((0 : ℚ) :: sharesTrace "AAPL" 500000 none
        [(⟨2022, 1, 3⟩, 100), (⟨2022, 1, 4⟩, 110), (⟨2022, 2, 1⟩, 120)]) :=
  (C1_shares_monotone "AAPL" 500000
    [(⟨2022, 1, 3⟩, 100), (⟨2022, 1, 4⟩, 110), (⟨2022, 2, 1⟩, 120)]
    (by norm_num)
    (by
      intro e he
      simp only [List.mem_cons, List.not_mem_nil, or_false] at he
      rcases he with rfl | rfl | rfl <;> norm_num)
    (by decide) (by decide)).1

/-- C6 (amended): over any strictly date-sorted index with no month-number
aliasing between consecutive calendar months, the cumulative principal series
steps by exactly the monthly amount on the first date of each calendar month
present in the index and is flat on every other date; it reads nothing but the
dates. (The source compares only month numbers, app.py:332-337.) -/
theorem C6_principal_steps (m : ℚ) (idx : List Date)
    (hsorted : sortedDates idx = true) (halias : noMonthAliasing idx = true) :
    ∀ i, i < idx.length →
      ((0 : ℚ) :: cumulative_principal m idx).getD (i + 1) 0 =
        ((0 : ℚ) :: cumulative_principal m idx).getD i 0 +
          (if firstOfNewMonth idx i = true then m else 0) := by
  intro i hi
  have h := principalRun_aux m idx 0 none halias i hi
  rw [if_congr (consecNew_none_iff_first idx hsorted i hi) rfl rfl] at h
  exact h

/-- C6 (counterexample): 2023-01-04 opens a new calendar month of the index,
but the principal does not step there: the loop only compares month numbers
and the previous contribution month was also a January. -/
theorem C6_counterexample :
    sortedDates [⟨2022, 1, 3⟩, ⟨2023, 1, 4⟩] = true ∧
    firstOfNewMonth [⟨2022, 1, 3⟩, ⟨2023, 1, 4⟩] 1 = true ∧
    cumulative_principal 500000 [⟨2022, 1, 3⟩, ⟨2023, 1, 4⟩] = [500000, 500000] := by
  refine ⟨by decide, by decide, ?_⟩
  norm_num [cumulative_principal, principalRun]

/-- C6 (witness): the amended step equation at the month boundary of a concrete
index. -/
theorem C6_witness :
    ((0 : ℚ) :: cumulative_principal 500000 [⟨2022, 1, 31⟩, ⟨2022, 2, 1⟩]).getD 2 0 =
      ((0 : ℚ) :: cumulative_principal 500000 [⟨2022, 1, 31⟩, ⟨2022, 2, 1⟩]).getD 1 0 +
        (if firstOfNewMonth [⟨2022, 1, 31⟩, ⟨2022, 2, 1⟩] 1 = true then 500000 else 0) :=
  C6_principal_steps 500000 [⟨2022, 1, 31⟩, ⟨2022, 2, 1⟩] (by decide) (by decide) 1
    (by decide)

/-- C2: the concrete home-currency scenario. Day 1 invests 500000 at price 100
(5000 shares, value 500000); day 2 only marks to market (550000); day 3 opens a
new month, buys 500000/120 more shares for a total of 27500/3 ≈ 9166.67, and
records 27500/3 × 120 = 1100000 exactly. -/
theorem C2_concrete_scenario :
    simulate_monthly_investment "005930"
        (some [(⟨2022, 1, 3⟩, 100), (⟨2022, 1, 4⟩, 110), (⟨2022, 2, 1⟩, 120)])
        500000 none =
      some [⟨⟨2022, 1, 3⟩, 500000⟩, ⟨⟨2022, 1, 4⟩, 550000⟩, ⟨⟨2022, 2, 1⟩, 1100000⟩] ∧
    sharesTrace "005930" 500000 none
        [(⟨2022, 1, 3⟩, 100), (⟨2022, 1, 4⟩, 110), (⟨2022, 2, 1⟩, 120)] =
      [5000, 5000, 27500 / 3] := by
  have hkr : is_korean_stock "005930" = true := rfl
  constructor
  · simp only [simulate_monthly_investment, sharesTrace, hkr]
    norm_num [simRun, simStep, trimAux]
  · simp only [sharesTrace, hkr]
    norm_num [simRun, simStep]

theorem sortedSeries_cons {e : Date × ℚ} {s : Series}
    (h : sortedSeries (e :: s) = true) :
    sortedSeries s = true ∧ ∀ f ∈ s, e.1.blt f.1 = true := by
  have h2 := sortedDates_cons (show sortedDates (e.1 :: s.map Prod.fst) = true from h)
  exact ⟨h2.1, fun f hf => h2.2 f.1 (List.mem_map_of_mem Prod.fst hf)⟩

theorem exactAt_of_mem :
    ∀ (s : Series), sortedSeries s = true → ∀ (d : Date) (r : ℚ), (d, r) ∈ s →
      exactAt s d = some r := by
  intro s
  induction s with
  | nil => intro _ d r hm; cases hm
  | cons e rest ih =>
    intro hs d r hm
    obtain ⟨hrest, hall⟩ := sortedSeries_cons hs
    cases hm with
    | head =>
      simp [exactAt]
    | tail _ hm =>
      have hlt : e.1.blt d = true := hall (d, r) hm
      have hne : e.1 ≠ d := by
        intro hcontra
        rw [hcontra, Date.blt_irrefl] at hlt
        cases hlt
      simp only [exactAt, if_neg hne]
      exact ih hrest d r hm

theorem exactAt_none_of :
    ∀ (s : Series) (d : Date), (∀ e ∈ s, e.1 ≠ d) → exactAt s d = none := by
  intro s
  induction s with
  | nil => intro d _; rfl
  | cons e rest ih =>
    intro d hmiss
    simp only [exactAt, if_neg (hmiss e (List.mem_cons_self e rest))]
    exact ih d (fun f hf => hmiss f (List.mem_cons_of_mem e hf))

theorem lastAtOrBefore_none_of_all_gt :
    ∀ (s : Series) (d : Date), (∀ e ∈ s, e.1.ble d = false) →
      lastAtOrBefore s d = none := by
  intro s
  induction s with
  | nil => intro d _; rfl
  | cons e rest ih =>
    intro d hall
    have h0 := hall e (List.mem_cons_self e rest)
    have ihr := ih d (fun f hf => hall f (List.mem_cons_of_mem e hf))
    simp [lastAtOrBefore, h0, ihr]

theorem lastBefore_congr :
    ∀ (s : Series) (d d0 : Date), (∀ e ∈ s, e.1.blt d = e.1.ble d0) →
      lastBefore s d = lastAtOrBefore s d0 := by
  intro s
  induction s with
  | nil => intro _ _ _; rfl
  | cons e rest ih =>
    intro d d0 hcond
    have h0 := hcond e (List.mem_cons_self e rest)
    have ihr := ih d d0 (fun f hf => hcond f (List.mem_cons_of_mem e hf))
    cases hb : e.1.blt d with
    | true =>
      have hb2 : e.1.ble d0 = true := by rw [← h0]; exact hb
      simp [lastBefore, lastAtOrBefore, hb, hb2, ihr]
    | false =>
      have hb2 : e.1.ble d0 = false := by rw [← h0]; exact hb
      simp [lastBefore, lastAtOrBefore, hb, hb2, ihr]

theorem lastAtOrBefore_split :
    ∀ (s : Series), sortedSeries s = true → ∀ d : Date,
      lastAtOrBefore s d =
        match exactAt s d with
        | some v => some v
        | none => lastBefore s d := by
  intro s
  induction s with
  | nil => intro _ d; rfl
  | cons e rest ih =>
    intro hs d
    obtain ⟨hrest, hall⟩ := sortedSeries_cons hs
    cases hble : e.1.ble d with
    | true =>
      rcases Date.eq_or_blt_of_ble hble with heq | hlt
      · have hnone : lastAtOrBefore rest d = none := by
          apply lastAtOrBefore_none_of_all_gt
          intro f hf
          have hgt : d.blt f.1 = true := heq ▸ hall f hf
          exact Date.not_ble_of_blt hgt
        simp [lastAtOrBefore, exactAt, hble, heq, hnone, Date.ble_refl]
      · have hne : e.1 ≠ d := by
          intro hcontra
          rw [hcontra, Date.blt_irrefl] at hlt
          cases hlt
        rw [show lastAtOrBefore (e :: rest) d = some ((lastAtOrBefore rest d).getD e.2) by
          simp [lastAtOrBefore, hble]]
        rw [show exactAt (e :: rest) d = exactAt rest d by simp [exactAt, hne]]
        rw [show lastBefore (e :: rest) d = some ((lastBefore rest d).getD e.2) by
          simp [lastBefore, hlt]]
        rw [ih hrest d]
        cases hx : exactAt rest d with
        | some v => simp [hx]
        | none => simp [hx]
    | false =>
      have hdlt : d.blt e.1 = true := Date.blt_of_not_ble hble
      have hne : e.1 ≠ d := by
        intro hcontra
        rw [hcontra, Date.blt_irrefl] at hdlt
        cases hdlt
      have hnblt : e.1.blt d = false := Date.not_blt_of_ble (Date.ble_of_blt hdlt)
      rw [show lastAtOrBefore (e :: rest) d = lastAtOrBefore rest d by
        simp [lastAtOrBefore, hble]]
      rw [show exactAt (e :: rest) d = exactAt rest d by simp [exactAt, hne]]
      rw [show lastBefore (e :: rest) d = lastBefore rest d by simp [lastBefore, hnblt]]
      exact ih hrest d

theorem lastAtOrBefore_spec :
    ∀ (s : Series) (d : Date) (v : ℚ), lastAtOrBefore s d = some v →
      ∃ e ∈ s, e.1.ble d = true ∧ e.2 = v := by
  intro s
  induction s with
  | nil => intro d v h; cases h
  | cons e rest ih =>
    intro d v h
    cases hb : e.1.ble d with
    | true =>
      rw [lastAtOrBefore, if_pos hb] at h
      cases hx : lastAtOrBefore rest d with
      | some w =>
        rw [hx] at h
        obtain ⟨f, hf, hfb, hfv⟩ := ih d w hx
        exact ⟨f, List.mem_cons_of_mem e hf, hfb, by
          simp only [Option.getD_some] at h
          rw [hfv]; exact Option.some.inj h⟩
      | none =>
        rw [hx] at h
        exact ⟨e, List.mem_cons_self e rest, hb, Option.some.inj h⟩
    | false =>
      rw [lastAtOrBefore, if_neg (by simp [hb])] at h
      obtain ⟨f, hf, hfb, hfv⟩ := ih d v h
      exact ⟨f, List.mem_cons_of_mem e hf, hfb, hfv⟩

theorem alignedRate_of_mem (s : Series) (hs : sortedSeries s = true) (d : Date)
    (r : ℚ) (hm : (d, r) ∈ s) : alignedRate (some s) d = r := by
  have hx := exactAt_of_mem s hs d r hm
  have hsplit := lastAtOrBefore_split s hs d
  rw [hx] at hsplit
  have hne : s.isEmpty = false := by
    cases s with
    | nil => cases hm
    | cons _ _ => rfl
  simp [alignedRate, hne, hsplit]

theorem alignedRate_ffill (s : Series) (hs : sortedSeries s = true) (d : Date)
    (hmiss : ∀ e ∈ s, e.1 ≠ d) (dp : Date) (rp : ℚ) (hmem : (dp, rp) ∈ s)
    (hdp : dp.blt d = true)
    (hlatest : ∀ e ∈ s, e.1.ble d = true → e.1.ble dp = true) :
    alignedRate (some s) d = rp := by
  have hx : exactAt s d = none := exactAt_none_of s d hmiss
  have hsplit := lastAtOrBefore_split s hs d
  rw [hx] at hsplit
  have hcongr : lastBefore s d = lastAtOrBefore s dp := by
    apply lastBefore_congr
    intro e he
    cases hb : e.1.blt d with
    | true => exact (hlatest e he (Date.ble_of_blt hb)).symm
    | false =>
      cases hb2 : e.1.ble dp with
      | false => rfl
      | true =>
        exfalso
        have : e.1.blt d = true := Date.blt_of_ble_of_blt hb2 hdp
        rw [this] at hb
        cases hb
  have h2 : lastAtOrBefore s dp = some rp := by
    have hsp := lastAtOrBefore_split s hs dp
    rw [exactAt_of_mem s hs dp rp hmem] at hsp
    exact hsp
  have hne : s.isEmpty = false := by
    cases s with
    | nil => cases hmem
    | cons _ _ => rfl
  simp [alignedRate, hne, hsplit, hcongr, h2]

/-- C3: for a non-home-currency instrument, the per-date native contribution is
`monthly / fx_rate(date)` and the recorded value is
`shares × price × fx_rate(date)`, where the rate is read off the FX series at
the date, forward-filled from the most recent earlier FX date when the date is
missing, and replaced by the default 1300 when no FX series exists (or it is
empty); a home-currency instrument uses rate 1 throughout (value
`shares × price`, contribution `monthly` unchanged). -/
theorem C3_fx_semantics (s : Series) (hs : sortedSeries s = true) :
    (∀ (d : Date) (r : ℚ), (d, r) ∈ s → alignedRate (some s) d = r) ∧
    (∀ (d dp : Date) (rp : ℚ), (∀ e ∈ s, e.1 ≠ d) → (dp, rp) ∈ s →
      dp.blt d = true → (∀ e ∈ s, e.1.ble d = true → e.1.ble dp = true) →
      alignedRate (some s) d = rp) ∧
    (∀ d : Date, alignedRate none d = defaultRate ∧
      alignedRate (some []) d = defaultRate) ∧
    (∀ (C2 : ℚ) (fx : Option Series) (st : SimState) (e : Date × ℚ),
      (simStep false C2 fx st e).2.value =
        (simStep false C2 fx st e).1.shares * e.2 * alignedRate fx e.1 ∧
      (simStep false C2 fx st e).1.shares =
        (if ((e.1.month : Int) = st.lastMonth) then st.shares
         else st.shares + (C2 / alignedRate fx e.1) / e.2)) ∧
    (∀ (C2 : ℚ) (fx : Option Series) (st : SimState) (e : Date × ℚ),
      (simStep true C2 fx st e).2.value = (simStep true C2 fx st e).1.shares * e.2 ∧
      (simStep true C2 fx st e).1.shares =
        (if ((e.1.month : Int) = st.lastMonth) then st.shares
         else st.shares + C2 / e.2)) := by
  refine ⟨fun d r hm => alignedRate_of_mem s hs d r hm,
    fun d dp rp h1 h2 h3 h4 => alignedRate_ffill s hs d h1 dp rp h2 h3 h4,
    fun d => ⟨rfl, rfl⟩, ?_, ?_⟩
  · intro C2 fx st e
    constructor <;> simp [simStep]
  · intro C2 fx st e
    constructor <;> simp [simStep]

/-- C3 (witness): the three rate cases and the step equations at concrete
inputs: an exact FX date, a forward-filled later date, and the no-data
fallback. -/
theorem C3_witness :
    alignedRate (some [(⟨2022, 1, 3⟩, 1400)]) ⟨2022, 1, 3⟩ = 1400 ∧
    alignedRate (some [(⟨2022, 1, 3⟩, 1400)]) ⟨2022, 1, 10⟩ = 1400 ∧
    alignedRate none ⟨2022, 1, 3⟩ = defaultRate := by
  have h := C3_fx_semantics [(⟨2022, 1, 3⟩, 1400)] (by decide)
  refine ⟨h.1 ⟨2022, 1, 3⟩ 1400 (List.mem_singleton.mpr rfl), ?_, (h.2.2.1 ⟨2022, 1, 3⟩).1⟩
  refine h.2.1 ⟨2022, 1, 10⟩ ⟨2022, 1, 3⟩ 1400 ?_ (List.mem_singleton.mpr rfl)
    (by decide) ?_
  · intro e he
    rw [List.mem_singleton.mp he]
    decide
  · intro e he _
    rw [List.mem_singleton.mp he]
    decide

/-- C9 (counterexample): an FX rate that is present but zero is used as-is:
the aligned rate at 2022-01-03 is 0, not the claimed fallback 1300, because
`fillna` only replaces missing values, never zeros, before the division by the
rate. -/
theorem C9_counterexample :
    alignedRate (some [(⟨2022, 1, 3⟩, 0)]) ⟨2022, 1, 3⟩ = 0 ∧
    (0 : ℚ) ≠ defaultRate := by
  constructor
  · simp [alignedRate, lastAtOrBefore, Date.ble_refl]
  · norm_num [defaultRate]

/-- C9 (amended): the rate fed into the contribution division is either the
fallback 1300 or a value actually present in the FX series at or before the
date — possibly zero, which is not replaced; the fallback is applied exactly
when no FX value at or before the date exists. -/
theorem C9_rate_source (fx : Option Series) (d : Date) :
    (alignedRate fx d = defaultRate ∨
      ∃ s, fx = some s ∧ ∃ e ∈ s, e.1.ble d = true ∧ alignedRate fx d = e.2) ∧
    ((∀ s, fx = some s → ∀ e ∈ s, e.1.ble d = false) →
      alignedRate fx d = defaultRate) := by
  constructor
  · cases fx with
    | none => exact Or.inl rfl
    | some s =>
      cases he : s.isEmpty with
      | true => exact Or.inl (by simp [alignedRate, he])
      | false =>
        cases hx : lastAtOrBefore s d with
        | none => exact Or.inl (by simp [alignedRate, he, hx])
        | some v =>
          obtain ⟨e, hmem, hble, hval⟩ := lastAtOrBefore_spec s d v hx
          exact Or.inr ⟨s, rfl, e, hmem, hble, by simp [alignedRate, he, hx, hval]⟩
  · intro hmiss
    cases fx with
    | none => rfl
    | some s =>
      have hnone : lastAtOrBefore s d = none :=
        lastAtOrBefore_none_of_all_gt s d (hmiss s rfl)
      cases he : s.isEmpty with
      | true => simp [alignedRate, he]
      | false => simp [alignedRate, he, hnone]

/-- C9 (witness): a date before the first FX date receives the fallback rate. -/
theorem C9_witness :
    alignedRate (some [(⟨2022, 1, 3⟩, 1350)]) ⟨2022, 1, 1⟩ = defaultRate :=
  (C9_rate_source (some [(⟨2022, 1, 3⟩, 1350)]) ⟨2022, 1, 1⟩).2
    (by
      intro s hs e he
      rw [← Option.some.inj hs] at he
      rw [List.mem_singleton.mp he]
      decide)

theorem simRun_length (isKr : Bool) (C2 : ℚ) (fx : Option Series) :
    ∀ (st : SimState) (P : Series), (simRun isKr C2 fx st P).length = P.length := by
  intro st P
  induction P generalizing st with
  | nil => rfl
  | cons e rest ih => simp [simRun_cons, ih]

/-- C4 (amended): `simulate_monthly_investment` has no guard on the closing
price: a mark-to-market row is recorded for every date of the series, and on a
contribution date the buy divides the contribution by the price whatever its
sign — with a negative price and a positive contribution the share count goes
negative instead of staying unchanged. -/
theorem C4_no_price_guard (C2 : ℚ) (hC : 0 < C2) :
    (∀ (isKr : Bool) (fx : Option Series) (st : SimState) (P : Series),
      ((simRun isKr C2 fx st P).map (fun x => x.2)).length = P.length) ∧
    (∀ (isKr : Bool) (fx : Option Series) (st : SimState) (e : Date × ℚ),
      (simStep isKr C2 fx st e).1.shares =
        (if ((e.1.month : Int) = st.lastMonth) then st.shares
         else st.shares + (if isKr then C2 else C2 / alignedRate fx e.1) / e.2)) ∧
    (∀ (d : Date) (p : ℚ), p < 0 →
      sharesTrace "005930" C2 none [(d, p)] = [C2 / p] ∧ C2 / p < 0) := by
  refine ⟨?_, ?_, ?_⟩
  · intro isKr fx st P
    simp [simRun_length]
  · intro isKr fx st e
    cases isKr <;> simp [simStep]
  · intro d p hp
    have hkr : is_korean_stock "005930" = true := rfl
    have hm : ¬((d.month : Int) = (-1 : Int)) := by omega
    constructor
    · simp [sharesTrace, hkr, simRun, simStep, hm]
    · exact div_neg_of_pos_of_neg hC hp

/-- C4 (counterexample): a series with a single date whose closing price is
−1 ≤ 0. The claim says the contribution is skipped there (shares stay 0), but
the loop buys anyway: the share count becomes −500000. -/
theorem C4_counterexample :
    ((-1 : ℚ) ≤ 0) ∧
    sharesTrace "005930" 500000 none [(⟨2022, 1, 3⟩, -1)] = [-500000] := by
  refine ⟨by norm_num, ?_⟩
  have hkr : is_korean_stock "005930" = true := rfl
  simp only [sharesTrace, hkr]
  norm_num [simRun, simStep]

/-- C4 (witness): the amended theorem applied at price −1, contribution
500000. -/
theorem C4_witness :
    sharesTrace "005930" 500000 none [(⟨2022, 1, 3⟩, -1)] = [500000 / (-1 : ℚ)] ∧
    (500000 : ℚ) / (-1 : ℚ) < 0 :=
  (C4_no_price_guard 500000 (by norm_num)).2.2 ⟨2022, 1, 3⟩ (-1) (by norm_num)

theorem simStep_true_fx (C2 : ℚ) (fx : Option Series) (st : SimState) (e : Date × ℚ) :
    simStep true C2 fx st e = simStep true C2 none st e := rfl

theorem simRun_true_fx (C2 : ℚ) (fx : Option Series) :
    ∀ (st : SimState) (P : Series),
      simRun true C2 fx st P = simRun true C2 none st P := by
  intro st P
  induction P generalizing st with
  | nil => rfl
  | cons e rest ih =>
    rw [simRun_cons, simRun_cons, simStep_true_fx, ih]

/-- C10: the home-currency decision is purely syntactic on the code — exactly
six decimal digits means domestic. A domestic simulation never reads the FX
series (rate 1: value `shares × price`, contribution undivided), while every
other code divides its contribution by the aligned USD/KRW rate and multiplies
its value by that rate. -/
theorem C10_currency_by_code (code : String) :
    (is_korean_stock code = (code.data.all Char.isDigit && code.length == 6)) ∧
    (is_korean_stock code = true → ∀ (P : Option Series) (C2 : ℚ) (fx : Option Series),
      simulate_monthly_investment code P C2 fx =
        simulate_monthly_investment code P C2 none) ∧
    (is_korean_stock code = false →
      ∀ (C2 : ℚ) (fx : Option Series) (st : SimState) (e : Date × ℚ),
        (simStep (is_korean_stock code) C2 fx st e).1.shares =
          (if ((e.1.month : Int) = st.lastMonth) then st.shares
           else st.shares + (C2 / alignedRate fx e.1) / e.2) ∧
        (simStep (is_korean_stock code) C2 fx st e).2.value =
          (simStep (is_korean_stock code) C2 fx st e).1.shares * e.2 *
            alignedRate fx e.1) ∧
    (is_korean_stock code = true →
      ∀ (C2 : ℚ) (fx : Option Series) (st : SimState) (e : Date × ℚ),
        (simStep (is_korean_stock code) C2 fx st e).1.shares =
          (if ((e.1.month : Int) = st.lastMonth) then st.shares
           else st.shares + C2 / e.2) ∧
        (simStep (is_korean_stock code) C2 fx st e).2.value =
          (simStep (is_korean_stock code) C2 fx st e).1.shares * e.2) := by
  refine ⟨rfl, ?_, ?_, ?_⟩
  · intro hkr P C2 fx
    cases P with
    | none => rfl
    | some close =>
      simp [simulate_monthly_investment, hkr, simRun_true_fx]
  · intro hkr C2 fx st e
    rw [hkr]
    constructor <;> simp [simStep]
  · intro hkr C2 fx st e
    rw [hkr]
    constructor <;> simp [simStep]

/-- C10 (witness): a six-digit code ignores the FX series entirely; a
non-six-digit code divides its contribution by the aligned rate. -/
theorem C10_witness :
    simulate_monthly_investment "005930" (some [(⟨2022, 1, 3⟩, 100)]) 500000
        (some [(⟨2022, 1, 3⟩, 9999)]) =
      simulate_monthly_investment "005930" (some [(⟨2022, 1, 3⟩, 100)]) 500000 none ∧
    (simStep (is_korean_stock "AAPL") 500000 none ⟨0, -1⟩ (⟨2022, 1, 3⟩, 100)).1.shares =
      (if (((⟨2022, 1, 3⟩ : Date).month : Int) = ((⟨0, -1⟩ : SimState).lastMonth)) then
        (⟨0, -1⟩ : SimState).shares
       else (⟨0, -1⟩ : SimState).shares +
        (500000 / alignedRate none ⟨2022, 1, 3⟩) / 100) :=
  ⟨(C10_currency_by_code "005930").2.1 rfl (some [(⟨2022, 1, 3⟩, 100)]) 500000
      (some [(⟨2022, 1, 3⟩, 9999)]),
    ((C10_currency_by_code "AAPL").2.2.1 rfl 500000 none ⟨0, -1⟩ (⟨2022, 1, 3⟩, 100)).1⟩

theorem Date.blt_trichotomy (a b : Date) :
    a = b ∨ a.blt b = true ∨ b.blt a = true := by
  cases hab : a.ble b with
  | true =>
    rcases Date.eq_or_blt_of_ble hab with h | h
    · exact Or.inl h
    · exact Or.inr (Or.inl h)
  | false => exact Or.inr (Or.inr (Date.blt_of_not_ble hab))

theorem zipWith_map_both {α β γ δ : Type} (f : β → γ → δ) (g : α → β) (h : α → γ) :
    ∀ l : List α, List.zipWith f (l.map g) (l.map h) = l.map (fun x => f (g x) (h x)) := by
  intro l
  induction l with
  | nil => rfl
  | cons a t ih => simp [ih]

theorem filter_map_comm {α β : Type} (f : α → β) (p : β → Bool) :
    ∀ l : List α, (l.map f).filter p = (l.filter (fun d => p (f d))).map f := by
  intro l
  induction l with
  | nil => rfl
  | cons a t ih =>
    cases hp : p (f a) with
    | true => simp [List.filter_cons, hp, ih]
    | false => simp [List.filter_cons, hp, ih]

theorem any_map_pred {α β : Type} (g : α → β) (q : β → Bool) :
    ∀ l : List α, (l.map g).any q = l.any (fun c => q (g c)) := by
  intro l
  induction l with
  | nil => rfl
  | cons a t ih => simp [ih]

theorem getD_map_lt {α β : Type} (f : α → β) :
    ∀ (l : List α) (j : Nat), j < l.length → ∀ (d1 : α) (d2 : β),
      (l.map f).getD j d2 = f (l.getD j d1) := by
  intro l
  induction l with
  | nil => intro j hj; simp at hj
  | cons a t ih =>
    intro j hj d1 d2
    cases j with
    | zero => rfl
    | succ j => exact ih j (by simpa using hj) d1 d2

theorem getLast_opt_map {α β : Type} (f : α → β) :
    ∀ l : List α, (l.map f).getLast? = l.getLast?.map f := by
  intro l
  induction l with
  | nil => rfl
  | cons a t ih =>
    cases t with
    | nil => rfl
    | cons b t2 =>
      rw [show List.map f (a :: b :: t2) = f a :: f b :: List.map f t2 from rfl]
      rw [List.getLast?_cons_cons, List.getLast?_cons_cons]
      rw [show f b :: List.map f t2 = List.map f (b :: t2) from rfl]
      exact ih

theorem mem_of_getLast_opt {α : Type} :
    ∀ (l : List α) (x : α), l.getLast? = some x → x ∈ l := by
  intro l
  induction l with
  | nil => intro x h; cases h
  | cons a t ih =>
    intro x h
    cases t with
    | nil =>
      cases h
      exact List.mem_singleton.mpr rfl
    | cons b t2 =>
      rw [List.getLast?_cons_cons] at h
      exact List.mem_cons_of_mem a (ih x h)

theorem sortedDates_cons_intro {d : Date} {l : List Date}
    (hl : sortedDates l = true) (hall : ∀ x ∈ l, d.blt x = true) :
    sortedDates (d :: l) = true := by
  cases l with
  | nil => rfl
  | cons b t =>
    simp only [sortedDates, Bool.and_eq_true]
    exact ⟨hall b (List.mem_cons_self b t), hl⟩

theorem sortedDates_filter (p : Date → Bool) :
    ∀ (l : List Date), sortedDates l = true → sortedDates (l.filter p) = true := by
  intro l
  induction l with
  | nil => intro _; rfl
  | cons a t ih =>
    intro hs
    obtain ⟨ht, hall⟩ := sortedDates_cons hs
    cases hp : p a with
    | false => simpa [List.filter_cons, hp] using ih ht
    | true =>
      rw [List.filter_cons, if_pos (by simp [hp])]
      refine sortedDates_cons_intro (ih ht) ?_
      intro x hx
      exact hall x (List.mem_of_mem_filter hx)

/-- Insert a date into a sorted list, keeping it sorted and duplicate-free. -/
def insertDate (d : Date) : List Date → List Date
  | [] => [d]
  | x :: xs =>
    if d = x then x :: xs
    else if d.blt x = true then d :: x :: xs
    else x :: insertDate d xs

theorem mem_insertDate (d : Date) :
    ∀ (l : List Date) (x : Date), x ∈ insertDate d l ↔ x = d ∨ x ∈ l := by
  intro l
  induction l with
  | nil => intro x; simp [insertDate]
  | cons a t ih =>
    intro x
    by_cases h1 : d = a
    · subst h1
      simp only [insertDate, if_pos rfl]
      constructor
      · exact Or.inr
      · intro h
        rcases h with h | h
        · rw [h]; exact List.mem_cons_self d t
        · exact h
    · rw [insertDate, if_neg h1]
      by_cases h2 : d.blt a = true
      · rw [if_pos h2]
        simp [List.mem_cons]
      · rw [if_neg h2]
        simp only [List.mem_cons, ih x]
        tauto

theorem sorted_insertDate (d : Date) :
    ∀ (l : List Date), sortedDates l = true → sortedDates (insertDate d l) = true := by
  intro l
  induction l with
  | nil => intro _; rfl
  | cons a t ih =>
    intro hs
    obtain ⟨ht, hall⟩ := sortedDates_cons hs
    by_cases h1 : d = a
    · rw [insertDate, if_pos h1]; exact hs
    · rw [insertDate, if_neg h1]
      by_cases h2 : d.blt a = true
      · rw [if_pos h2]
        refine sortedDates_cons_intro hs ?_
        intro x hx
        rcases List.mem_cons.mp hx with rfl | hx
        · exact h2
        · exact Date.blt_trans h2 (hall x hx)
      · rw [if_neg h2]
        have had : a.blt d = true := by
          rcases Date.blt_trichotomy d a with h | h | h
          · exact absurd h h1
          · exact absurd h h2
          · exact h
        refine sortedDates_cons_intro (ih ht) ?_
        intro x hx
        rcases (mem_insertDate d t x).mp hx with rfl | hx
        · exact had
        · exact hall x hx

/-- Fold a series of dates into an accumulator index. -/
def insertAll (ds : List Date) (acc : List Date) : List Date :=
  ds.foldl (fun a x => insertDate x a) acc

theorem sorted_insertAll :
    ∀ (ds acc : List Date), sortedDates acc = true →
      sortedDates (insertAll ds acc) = true := by
  intro ds
  induction ds with
  | nil => intro acc h; exact h
  | cons d t ih =>
    intro acc h
    exact ih (insertDate d acc) (sorted_insertDate d acc h)

theorem mem_insertAll :
    ∀ (ds acc : List Date) (x : Date),
      x ∈ insertAll ds acc ↔ x ∈ ds ∨ x ∈ acc := by
  intro ds
  induction ds with
  | nil => intro acc x; simp [insertAll]
  | cons d t ih =>
    intro acc x
    have := ih (insertDate d acc) x
    rw [insertAll, List.foldl_cons] at *
    rw [this, mem_insertDate]
    simp [List.mem_cons]
    tauto

/-- The union of the dates of all columns, sorted ascending: the outer-join
index produced by `pd.concat(dfs, axis=1)`. -/
def unionDates (cols : List Series) : List Date :=
  cols.foldl (fun acc c => insertAll (c.map Prod.fst) acc) []

theorem unionDates_fold_sorted :
    ∀ (cols : List Series) (acc : List Date), sortedDates acc = true →
      sortedDates (cols.foldl (fun a c => insertAll (c.map Prod.fst) a) acc) = true := by
  intro cols
  induction cols with
  | nil => intro acc h; exact h
  | cons c t ih =>
    intro acc h
    exact ih (insertAll (c.map Prod.fst) acc) (sorted_insertAll (c.map Prod.fst) acc h)

theorem sorted_unionDates (cols : List Series) : sortedDates (unionDates cols) = true :=
  unionDates_fold_sorted cols [] rfl

theorem unionDates_fold_mem :
    ∀ (cols : List Series) (acc : List Date) (x : Date),
      x ∈ cols.foldl (fun a c => insertAll (c.map Prod.fst) a) acc ↔
        (∃ c ∈ cols, x ∈ c.map Prod.fst) ∨ x ∈ acc := by
  intro cols
  induction cols with
  | nil => intro acc x; simp
  | cons c t ih =>
    intro acc x
    rw [List.foldl_cons, ih (insertAll (c.map Prod.fst) acc) x, mem_insertAll]
    simp only [List.mem_cons]
    constructor
    · rintro (⟨c2, hc2, hx⟩ | hx | hx)
      · exact Or.inl ⟨c2, Or.inr hc2, hx⟩
      · exact Or.inl ⟨c, Or.inl rfl, hx⟩
      · exact Or.inr hx
    · rintro (⟨c2, (rfl | hc2), hx⟩ | hx)
      · exact Or.inr (Or.inl hx)
      · exact Or.inl ⟨c2, hc2, hx⟩
      · exact Or.inr (Or.inr hx)

theorem mem_unionDates (cols : List Series) (x : Date) :
    x ∈ unionDates cols ↔ ∃ c ∈ cols, x ∈ c.map Prod.fst := by
  rw [unionDates, unionDates_fold_mem]
  simp

/-- One joined output row: a date and one optional cell per column. -/
abbrev Row := Date × List (Option ℚ)

/-- Embedding of `pd.concat(dfs, axis=1)`: the outer join on the union of the dates, with a
cell exactly where a column has that exact date. -/
def outerConcat (cols : List Series) : List Row :=
  (unionDates cols).map (fun d => (d, cols.map (fun c => exactAt c d)))

/-- One row of `DataFrame.ffill()`: a missing cell is replaced by the carried
value of its column. -/
def ffillCells (cells carry : List (Option ℚ)) : List (Option ℚ) :=
  List.zipWith (fun cur pre => match cur with | some v => some v | none => pre) cells carry

/-- Embedding of `DataFrame.ffill()`: walk the rows top-down carrying each column's last
seen value. -/
def ffillRows : List (Option ℚ) → List Row → List Row
  | _, [] => []
  | carry, r :: rest =>
    (r.1, ffillCells r.2 carry) :: ffillRows (ffillCells r.2 carry) rest

/-- Embedding of `DataFrame.dropna(how=all)`: keep the rows with at least one present
cell. -/
def dropAllNa (rows : List Row) : List Row :=
  rows.filter (fun r => r.2.any (fun c => c.isSome))

/-- The module-level aggregation `pd.concat(dfs, axis=1).ffill().dropna(how=all)`
(app.py:324) over the collected (non-`None`) simulation outputs. -/
def aggregate_data (results : List (Option Series)) : List Row :=
  dropAllNa (ffillRows ((results.filterMap id).map (fun _ => none))
    (outerConcat (results.filterMap id)))

/-- Modelled from the spec: the aggregation as the claim words it — it joins
only the NON-EMPTY results ("takes all non-empty per-instrument simulation
results"), where the source keeps every non-`None` result. Used only to
compare against `aggregate_data`. -/
def aggregateSpec (results : List (Option Series)) : List Row :=
  dropAllNa (ffillRows (((results.filterMap id).filter
      (fun c => !(List.isEmpty c))).map (fun _ => none))
    (outerConcat ((results.filterMap id).filter (fun c => !(List.isEmpty c)))))

/-- The closed-form table: for each union date with at least one column value
at or before it, each column cell is that column's forward-filled value. -/
def closedTable (cols : List Series) : List Row :=
  ((unionDates cols).filter
      (fun d => cols.any (fun c => (lastAtOrBefore c d).isSome))).map
    (fun d => (d, cols.map (fun c => lastAtOrBefore c d)))

theorem map_congr_mem {α β : Type} (f g : α → β) :
    ∀ l : List α, (∀ a ∈ l, f a = g a) → l.map f = l.map g := by
  intro l
  induction l with
  | nil => intro _; rfl
  | cons a t ih =>
    intro h
    rw [List.map_cons, List.map_cons, h a (List.mem_cons_self a t),
      ih (fun x hx => h x (List.mem_cons_of_mem a hx))]

theorem filter_congr_mem {α : Type} (p q : α → Bool) :
    ∀ l : List α, (∀ a ∈ l, p a = q a) → l.filter p = l.filter q := by
  intro l
  induction l with
  | nil => intro _; rfl
  | cons a t ih =>
    intro h
    rw [List.filter_cons, List.filter_cons, h a (List.mem_cons_self a t),
      ih (fun x hx => h x (List.mem_cons_of_mem a hx))]

theorem lastBefore_none_of_all :
    ∀ (s : Series) (d : Date), (∀ e ∈ s, e.1.blt d = false) →
      lastBefore s d = none := by
  intro s
  induction s with
  | nil => intro d _; rfl
  | cons e rest ih =>
    intro d hall
    have h0 := hall e (List.mem_cons_self e rest)
    have ihr := ih d (fun f hf => hall f (List.mem_cons_of_mem e hf))
    simp [lastBefore, h0, ihr]

/-- The value a column has already contributed strictly before the current
position: nothing at the top of the frame, else its forward-fill value at the
previous date. -/
def coverValue (c : Series) : Option Date → Option ℚ
  | none => none
  | some d0 => lastAtOrBefore c d0

/-- The bound is strictly below the date. -/
def boundLt (b : Option Date) (d : Date) : Prop :=
  match b with
  | none => True
  | some d0 => d0.blt d = true

/-- The date is at or below the bound (never holds for the empty bound). -/
def belowBound (x : Date) (b : Option Date) : Prop :=
  match b with
  | none => False
  | some d0 => x.ble d0 = true

theorem lastAtOrBefore_step (c : Series) (hc : sortedSeries c = true) (d : Date)
    (b : Option Date)
    (hgap : ∀ e ∈ c, e.1.blt d = true → belowBound e.1 b)
    (hble : boundLt b d) :
    lastAtOrBefore c d =
      match exactAt c d with
      | some v => some v
      | none => coverValue c b := by
  rw [lastAtOrBefore_split c hc d]
  cases hx : exactAt c d with
  | some v => rfl
  | none =>
    cases b with
    | none =>
      apply lastBefore_none_of_all
      intro e he
      cases hbe : e.1.blt d with
      | false => rfl
      | true => exact absurd (hgap e he hbe) (by simp [belowBound])
    | some d0 =>
      show lastBefore c d = lastAtOrBefore c d0
      apply lastBefore_congr
      intro e he
      cases hbe : e.1.blt d with
      | true => exact (hgap e he hbe).symm
      | false =>
        cases hb2 : e.1.ble d0 with
        | false => rfl
        | true =>
          exfalso
          have hlt : e.1.blt d = true := Date.blt_of_ble_of_blt hb2 hble
          rw [hlt] at hbe
          cases hbe

theorem ffillRows_closed (cols : List Series) (hcols : ∀ c ∈ cols, sortedSeries c = true) :
    ∀ (ds : List Date) (b : Option Date),
      sortedDates (optCons b ds) = true →
      (∀ c ∈ cols, ∀ e ∈ c, e.1 ∈ ds ∨ belowBound e.1 b) →
      ffillRows (cols.map (fun c => coverValue c b))
          (ds.map (fun d => (d, cols.map (fun c => exactAt c d)))) =
        ds.map (fun d => (d, cols.map (fun c => lastAtOrBefore c d))) := by
  intro ds
  induction ds with
  | nil => intro b _ _; rfl
  | cons d rest ih =>
    intro b hsorted hcover
    have hsorted_rest : sortedDates (d :: rest) = true := by
      cases b with
      | none => exact hsorted
      | some d0 => exact sortedDates_tail (show sortedDates (d0 :: d :: rest) = true from hsorted)
    have hrest_all : ∀ x ∈ rest, d.blt x = true := (sortedDates_cons hsorted_rest).2
    have hble_b : boundLt b d := by
      cases b with
      | none => trivial
      | some d0 =>
        exact (sortedDates_cons (show sortedDates (d0 :: d :: rest) = true from hsorted)).2
          d (List.mem_cons_self d rest)
    have hgap : ∀ c ∈ cols, ∀ e ∈ c, e.1.blt d = true → belowBound e.1 b := by
      intro c hc e he hbe
      rcases hcover c hc e he with hmem | hb
      · exfalso
        rcases List.mem_cons.mp hmem with heq | hmem2
        · rw [heq, Date.blt_irrefl] at hbe; cases hbe
        · have h2 := hrest_all e.1 hmem2
          have h3 := Date.blt_trans hbe h2
          rw [Date.blt_irrefl] at h3
          cases h3
      · exact hb
    have hcells : ffillCells (cols.map (fun c => exactAt c d))
        (cols.map (fun c => coverValue c b)) =
        cols.map (fun c => lastAtOrBefore c d) := by
      rw [ffillCells, zipWith_map_both]
      apply map_congr_mem
      intro c hc
      rw [lastAtOrBefore_step c (hcols c hc) d b (hgap c hc) hble_b]
    have hcover2 : ∀ c ∈ cols, ∀ e ∈ c, e.1 ∈ rest ∨ belowBound e.1 (some d) := by
      intro c hc e he
      rcases hcover c hc e he with hmem | hb
      · rcases List.mem_cons.mp hmem with heq | hmem2
        · right
          show e.1.ble d = true
          rw [heq]
          exact Date.ble_refl d
        · left; exact hmem2
      · right
        show e.1.ble d = true
        cases b with
        | none => cases hb
        | some d0 =>
          exact Date.ble_trans hb (Date.ble_of_blt hble_b)
    have ihr := ih (some d) (show sortedDates (optCons (some d) rest) = true from hsorted_rest)
      hcover2
    rw [List.map_cons, List.map_cons]
    simp only [ffillRows]
    rw [hcells]
    have hcarry : (cols.map fun c => lastAtOrBefore c d) =
        cols.map (fun c => coverValue c (some d)) :=
      map_congr_mem _ _ cols (fun c _ => rfl)
    rw [hcarry, ihr]

theorem aggregate_closed (cols : List Series) (hs : ∀ c ∈ cols, sortedSeries c = true) :
    dropAllNa (ffillRows (cols.map (fun _ => none)) (outerConcat cols)) =
      closedTable cols := by
  have hinit : (cols.map (fun _ => (none : Option ℚ))) =
      cols.map (fun c => coverValue c none) :=
    map_congr_mem _ _ cols (fun c _ => rfl)
  have hcover : ∀ c ∈ cols, ∀ e ∈ c, e.1 ∈ unionDates cols ∨ belowBound e.1 none := by
    intro c hc e he
    exact Or.inl ((mem_unionDates cols e.1).mpr ⟨c, hc, List.mem_map_of_mem Prod.fst he⟩)
  have hmain := ffillRows_closed cols hs (unionDates cols) none
    (sorted_unionDates cols) hcover
  rw [outerConcat, hinit, hmain, closedTable, dropAllNa, filter_map_comm]
  congr 1
  apply filter_congr_mem
  intro d _
  exact any_map_pred (fun c => lastAtOrBefore c d) Option.isSome cols

/-- C5 (amended): the aggregation joins all non-`None` (rather than non-empty)
simulation results on the sorted union of their dates; after the forward fill,
the cell of column `c` at date `d` is the last value of `c` at or before `d`
(absent when none exists), and exactly the rows where every column is absent —
dates before every column's first value — are dropped. An empty-but-successful
result is kept and contributes an all-absent column. -/
theorem C5_aggregation (results : List (Option Series))
    (hs : ∀ c ∈ results.filterMap id, sortedSeries c = true) :
    aggregate_data results = closedTable (results.filterMap id) :=
  aggregate_closed (results.filterMap id) hs

/-- C5 (counterexample): with one non-empty result and one empty (but
non-`None`) result, the source keeps a column for the empty series, while the
claim's "take all non-empty results" aggregation does not: the two tables
differ. -/
theorem C5_counterexample :
    aggregate_data [some [(⟨2022, 1, 3⟩, 5)], some []] ≠
      aggregateSpec [some [(⟨2022, 1, 3⟩, 5)], some []] := by
  decide

/-- C5 (witness): the closed form of the join at a concrete two-instrument
input. -/
theorem C5_witness :
    aggregate_data [some [(⟨2022, 1, 3⟩, 5)], some [(⟨2022, 1, 4⟩, 7)]] =
      closedTable [[(⟨2022, 1, 3⟩, 5)], [(⟨2022, 1, 4⟩, 7)]] :=
  C5_aggregation [some [(⟨2022, 1, 3⟩, 5)], some [(⟨2022, 1, 4⟩, 7)]] (by decide)

/-- The per-code loop of the main block (app.py:312-317): one simulation call
per requested code, each on its own fetched data. -/
def runAll (inputs : List (String × Option Series)) (C2 : ℚ) (fx : Option Series) :
    List (Option (List SimRow)) :=
  inputs.map (fun p => simulate_monthly_investment p.1 p.2 C2 fx)

/-- The list `dfs`: the collected non-`None` simulation results (app.py:316-317). -/
def collectResults (results : List (Option (List SimRow))) : List (List SimRow) :=
  results.filterMap id

/-- The `if not dfs` guard that prints the "no valid data" notice
(app.py:319-321). -/
def noValidData (results : List (Option (List SimRow))) : Bool :=
  (collectResults results).isEmpty

theorem simulate_none_iff (code : String) (P : Option Series) (C2 : ℚ)
    (fx : Option Series) :
    simulate_monthly_investment code P C2 fx = none ↔ P = none := by
  cases P <;> simp [simulate_monthly_investment]

theorem filterMap_id_empty_iff {α : Type} :
    ∀ l : List (Option α), (l.filterMap id).isEmpty = true ↔ ∀ x ∈ l, x = none := by
  intro l
  induction l with
  | nil => simp
  | cons a t ih =>
    cases a with
    | none =>
      constructor
      · intro h x hx
        rcases List.mem_cons.mp hx with rfl | hx2
        · rfl
        · exact ih.mp h x hx2
      · intro h
        exact ih.mpr (fun x hx => h x (List.mem_cons_of_mem _ hx))
    | some v =>
      constructor
      · intro h
        exact absurd h (by simp [List.filterMap_cons])
      · intro h
        exact absurd (h (some v) (List.mem_cons_self _ _)) (by simp)

/-- C7 (amended): each instrument's result is computed from its own fetch only
(a caught fetch failure surfaces as `None` for that instrument, leaving every
other position unchanged), and the "no valid data" notice fires exactly when
every instrument's fetch failed: an instrument whose fetch succeeded with an
empty series is still collected as a valid (empty) result and suppresses the
notice. -/
theorem C7_failure_isolation (inputs : List (String × Option Series)) (C2 : ℚ)
    (fx : Option Series) :
    (∀ p ∈ inputs, p.2 = none →
      simulate_monthly_investment p.1 p.2 C2 fx = none) ∧
    (∀ (inputs2 : List (String × Option Series)) (i : Nat),
      i < inputs.length → i < inputs2.length →
      inputs.getD i default = inputs2.getD i default →
      (runAll inputs C2 fx).getD i none = (runAll inputs2 C2 fx).getD i none) ∧
    (noValidData (runAll inputs C2 fx) = true ↔ ∀ p ∈ inputs, p.2 = none) := by
  refine ⟨?_, ?_, ?_⟩
  · intro p _ hp
    rw [hp]
    rfl
  · intro inputs2 i hi hi2 heq
    rw [runAll, runAll, getD_map_lt _ inputs i hi default none,
      getD_map_lt _ inputs2 i hi2 default none, heq]
  · simp only [noValidData, collectResults]
    rw [filterMap_id_empty_iff]
    constructor
    · intro h p hp
      have h2 := h (simulate_monthly_investment p.1 p.2 C2 fx)
        (List.mem_map_of_mem _ hp)
      exact (simulate_none_iff p.1 p.2 C2 fx).mp h2
    · intro h x hx
      obtain ⟨p, hp, rfl⟩ := List.mem_map.mp hx
      exact (simulate_none_iff p.1 p.2 C2 fx).mpr (h p hp)

/-- C7 (counterexample): every requested instrument yields an empty series, yet
the guard does not fire: a successfully fetched empty series is collected as a
valid result, so no "no valid data" notice is reported (the claim requires the
notice in this situation). -/
theorem C7_counterexample :
    simulate_monthly_investment "AAPL" (some []) 500000 none = some [] ∧
    noValidData (runAll [("AAPL", some [])] 500000 none) = false :=
  ⟨rfl, rfl⟩

/-- C7 (witness): when every fetch failed, the notice fires. -/
theorem C7_witness :
    noValidData (runAll [("QQQ", none), ("AAPL", none)] 500000 none) = true :=
  (C7_failure_isolation [("QQQ", none), ("AAPL", none)] 500000 none).2.2.mpr
    (by
      intro p hp
      rcases List.mem_cons.mp hp with rfl | hp2
      · rfl
      · rw [List.mem_singleton.mp hp2])

/-- One column of the aggregated table, as `data[code]` reads it. -/
def columnOf (rows : List Row) (j : Nat) : List (Option ℚ) :=
  rows.map (fun r => r.2.getD j none)

/-- Embedding of `series.dropna().iloc[-1]`: the last present value of a column. -/
def lastSome : List (Option ℚ) → Option ℚ
  | [] => none
  | c :: rest =>
    match lastSome rest with
    | some v => some v
    | none => c

/-- The difference `profit_loss = final_value - total_invested_principal` (app.py:157). -/
def profit_loss (total fv : ℚ) : ℚ := fv - total

/-- The ratio `return_rate = (profit_loss / total) * 100 if total > 0 else 0`
(app.py:158). -/
def return_rate (total fv : ℚ) : ℚ :=
  if 0 < total then (fv - total) / total * 100 else 0

theorem lastAtOrBefore_isSome_iff :
    ∀ (s : Series) (d : Date),
      (lastAtOrBefore s d).isSome = true ↔ ∃ e ∈ s, e.1.ble d = true := by
  intro s
  induction s with
  | nil => intro d; simp [lastAtOrBefore]
  | cons e rest ih =>
    intro d
    cases hb : e.1.ble d with
    | true =>
      constructor
      · intro _
        exact ⟨e, List.mem_cons_self e rest, hb⟩
      · intro _
        simp [lastAtOrBefore, hb]
    | false =>
      constructor
      · intro h
        obtain ⟨f, hf, hfb⟩ := (ih d).mp (by simpa [lastAtOrBefore, hb] using h)
        exact ⟨f, List.mem_cons_of_mem e hf, hfb⟩
      · intro h
        obtain ⟨f, hf, hfb⟩ := h
        rcases List.mem_cons.mp hf with rfl | hf2
        · rw [hfb] at hb; cases hb
        · simpa [lastAtOrBefore, hb] using (ih d).mpr ⟨f, hf2, hfb⟩

theorem lastAtOrBefore_isSome_mono (c : Series) {a b : Date} (hab : a.ble b = true) :
    (lastAtOrBefore c a).isSome = true → (lastAtOrBefore c b).isSome = true := by
  intro h
  obtain ⟨e, he, heb⟩ := (lastAtOrBefore_isSome_iff c a).mp h
  exact (lastAtOrBefore_isSome_iff c b).mpr ⟨e, he, Date.ble_trans heb hab⟩

theorem lastSome_map_mono (f : Date → Option ℚ)
    (hmono : ∀ a b : Date, a.ble b = true →
      (f a).isSome = true → (f b).isSome = true) :
    ∀ (ds : List Date), sortedDates ds = true → ∀ dL, ds.getLast? = some dL →
      lastSome (ds.map f) = f dL := by
  intro ds
  induction ds with
  | nil => intro _ dL h; cases h
  | cons a t ih =>
    intro hs dL hL
    cases t with
    | nil =>
      have ha : a = dL := by simpa using hL
      subst ha
      rfl
    | cons b t2 =>
      rw [List.getLast?_cons_cons] at hL
      obtain ⟨ht, hall⟩ := sortedDates_cons hs
      have ihr := ih ht dL hL
      have hdL_mem : dL ∈ b :: t2 := mem_of_getLast_opt (b :: t2) dL hL
      have haL : a.ble dL = true := Date.ble_of_blt (hall dL hdL_mem)
      show (match lastSome ((b :: t2).map f) with
        | some v => some v
        | none => f a) = f dL
      rw [ihr]
      cases hfd : f dL with
      | some v => simp [hfd]
      | none =>
        cases hfa : f a with
        | none => simp [hfd]
        | some w =>
          exfalso
          have h1 : (f a).isSome = true := by rw [hfa]; rfl
          have h2 := hmono a dL haL h1
          rw [hfd] at h2
          cases h2

theorem mapped_lastSome (cols : List Series) (j : Nat) (hj : j < cols.length) :
    ∀ (ds : List Date), sortedDates ds = true →
      ∀ (dL : Date) (cells : List (Option ℚ)),
      (ds.map (fun d => (d, cols.map (fun c => lastAtOrBefore c d)))).getLast? =
        some (dL, cells) →
      lastSome (columnOf
          (ds.map (fun d => (d, cols.map (fun c => lastAtOrBefore c d)))) j) =
        lastAtOrBefore (cols.getD j []) dL := by
  intro ds hsort dL cells hlast
  rw [getLast_opt_map] at hlast
  cases hk : ds.getLast? with
  | none => rw [hk] at hlast; cases hlast
  | some d0 =>
    rw [hk] at hlast
    have hd0 : d0 = dL := congrArg Prod.fst (Option.some.inj hlast)
    subst hd0
    have hcol : columnOf
        (ds.map (fun d => (d, cols.map (fun c => lastAtOrBefore c d)))) j =
        ds.map (fun d => lastAtOrBefore (cols.getD j []) d) := by
      rw [columnOf, List.map_map]
      apply map_congr_mem
      intro d _
      exact getD_map_lt (fun c => lastAtOrBefore c d) cols j hj [] none
    rw [hcol]
    exact lastSome_map_mono (fun d => lastAtOrBefore (cols.getD j []) d)
      (fun a b hab => lastAtOrBefore_isSome_mono _ hab) ds hsort d0 hk

/-- C8: at the cursor — the last row of the aggregated table — a column's
`dropna().iloc[-1]` is exactly the column's forward-filled value at or before
the cursor date; `profit_loss` is `final_value − total_principal`; and
`return_rate` is `profit_loss / total_principal × 100` for positive principal
and a plain 0 (no division) when the principal is 0. -/
theorem C8_summary (results : List (Option Series))
    (hs : ∀ c ∈ results.filterMap id, sortedSeries c = true)
    (j : Nat) (hj : j < (results.filterMap id).length)
    (dL : Date) (cells : List (Option ℚ))
    (hlast : (aggregate_data results).getLast? = some (dL, cells)) :
    lastSome (columnOf (aggregate_data results) j) =
      lastAtOrBefore ((results.filterMap id).getD j []) dL ∧
    (∀ total fv, profit_loss total fv = fv - total) ∧
    (∀ fv, return_rate 0 fv = 0) ∧
    (∀ total fv, 0 < total → return_rate total fv = (fv - total) / total * 100) := by
  refine ⟨?_, fun total fv => rfl, fun fv => by simp [return_rate],
    fun total fv h => by simp [return_rate, h]⟩
  have hagg : aggregate_data results = closedTable (results.filterMap id) :=
    aggregate_closed (results.filterMap id) hs
  rw [hagg] at hlast ⊢
  exact mapped_lastSome (results.filterMap id) j hj
    ((unionDates (results.filterMap id)).filter
      (fun d => (results.filterMap id).any (fun c => (lastAtOrBefore c d).isSome)))
    (sortedDates_filter _ (unionDates (results.filterMap id))
      (sorted_unionDates (results.filterMap id)))
    dL cells hlast

/-- C8 (witness): the summary theorem at a one-instrument table. -/
theorem C8_witness :
    lastSome (columnOf (aggregate_data [some [(⟨2022, 1, 3⟩, 500000)]]) 0) =
      lastAtOrBefore [(⟨2022, 1, 3⟩, 500000)] ⟨2022, 1, 3⟩ :=
  (C8_summary [some [(⟨2022, 1, 3⟩, 500000)]] (by decide) 0 (by decide) ⟨2022, 1, 3⟩
    [some 500000] (by decide)).1
